import Mathlib

/-!
Verification of the redditrip retrieval pipeline.

This file embeds the core of the program in Lean:
  * `title.rs` — the naming engine (`Title::new`, `Title::format`, `clean`);
  * `subreddit.rs` — the per-target coordinator loop of `rip`, as an event
    trace (resume-marker writes, queue pops and pushes), together with the
    update-marker handling;
  * `sites/mod.rs` — strategy dispatch (`fetch`) and `file_extension`;
  * `sites/pushshift.rs` — the cursor update of `api` and the pagination loop.

Strings are represented as lists of characters (`Str`).  Byte-level
behaviour matters for truncation (Rust `String::truncate` works on bytes
and panics off a character boundary), so UTF-8 byte lengths are modelled
explicitly and a possible panic is an `Option.none` result.
-/

namespace Redditrip

/-- A Rust string, as its sequence of characters. -/
abbrev Str := List Char

/-- The characters `clean` treats as illegal in file names
(title.rs, lines 163-168). -/
def isIllegal (c : Char) : Bool :=
  c = '/' || c = '\\' || c = '|' || c = '?' || c = '<' || c = '>' ||
  c = ':' || c = '*' || c = '"'

/-- One step of `clean`: an illegal character becomes `'_'`. -/
def cleanChar (c : Char) : Char :=
  if isIllegal c then '_' else c

/-- Model of `clean` from title.rs (lines 160-171): replaces illegal characters
with `'_'`, character by character. -/
def clean (s : Str) : Str :=
  s.map cleanChar

/-- The UTF-8 encoded length of a character, in bytes. -/
def utf8Len (c : Char) : Nat :=
  if c.toNat < 0x80 then 1
  else if c.toNat < 0x800 then 2
  else if c.toNat < 0x10000 then 3
  else 4

/-- The UTF-8 byte length of a string (Rust `str::len`). -/
def byteLen (s : Str) : Nat :=
  (s.map utf8Len).sum

/-- Model of Rust `String::truncate(n)`: keeps the first `n` bytes.
If `n` is not less than the length it does nothing; if `n` falls inside
a multi-byte character the Rust call panics, modelled as `none`. -/
def truncateBytes : Nat → Str → Option Str
  | 0, _ => some []
  | _ + 1, [] => some []
  | n + 1, c :: rest =>
    if utf8Len c ≤ n + 1 then (truncateBytes (n + 1 - utf8Len c) rest).map (c :: ·)
    else none

/-- The closed vocabulary of placeholder fields (title.rs, `FIELDS`). -/
def FIELDS : List String :=
  ["test", "allow_live_comments", "author", "author_flair_text",
   "author_fullname", "author_patreon_flair", "author_premium",
   "can_mod_post", "contest_mode", "created_utc", "crosspost_parent",
   "domain", "full_link", "id", "is_crosspostable", "is_meta",
   "is_original_content", "is_reddit_media_domain", "is_robot_indexable",
   "is_self", "is_video", "link_flair_background_color",
   "link_flair_text_color", "link_flair_text", "link_flair_type",
   "locked", "media_only", "no_follow", "num_comments", "num_crossposts",
   "over_18", "parent_whitelist_status", "permalink", "pinned",
   "post_hint", "pwls", "removed_by_category", "retrieved_on", "score",
   "selftext", "send_replies", "spoiler", "stickied", "subreddit",
   "subreddit_id", "subreddit_subscribers", "subreddit_type", "thumbnail",
   "title", "total_awards_received", "url", "whitelist_status", "wls"]

/-- The placeholder text `{field}` searched for in the template. -/
def placeholder (f : String) : Str :=
  '{' :: f.data ++ ['}']

/-- Whether `pat` is an initial segment of `s`. -/
def startsWith : Str → Str → Bool
  | [], _ => true
  | _ :: _, [] => false
  | p :: ps, c :: cs => p = c && startsWith ps cs

/-- Whether `pat` occurs somewhere in `hay` (Rust `str::contains`). -/
def containsSub (pat : Str) : Str → Bool
  | [] => startsWith pat []
  | c :: t => startsWith pat (c :: t) || containsSub pat t

/-- A compiled title formatter (title.rs, `Title`): the cleaned template
and the fields whose placeholders occur in it. -/
structure Title where
  haystack : Str
  fields : List String

/-- Model of `Title::new` (title.rs, lines 98-118): cleans the template and keeps
the fields whose placeholder occurs in the cleaned template. -/
def Title.new (tpl : Str) : Title :=
  let h := clean tpl
  { haystack := h
    fields := FIELDS.filter (fun f => containsSub (placeholder f) h) }

/-- A `serde_json::Value` as it is consumed by `Title::format`: null
(also the result of looking up an absent field), a string, or any other
value carried as its `to_string` rendering. -/
inductive JVal where
  | null
  | str (s : Str)
  | other (rendered : Str)
deriving DecidableEq

/-- A JSON object, as an association list.  Looking up a missing key
yields `null`, exactly as `serde_json` indexing does. -/
def getField : List (String × JVal) → String → JVal
  | [], _ => .null
  | (k, v) :: rest, f => if k = f then v else getField rest f

/-- The replacement text produced by the `replace_all_with` callback
(title.rs, lines 137-149): nothing for null, `clean` of the string value,
`clean` of the rendering otherwise. -/
def replacement (item : List (String × JVal)) (f : String) : Str :=
  match getField item f with
  | .null => []
  | .str s => clean s
  | .other r => clean r

/-- The first compiled field whose placeholder starts at this position. -/
def findPH (fields : List String) (hay : Str) : Option String :=
  match fields with
  | [] => none
  | f :: rest => if startsWith (placeholder f) hay then some f else findPH rest hay

/-- The replacement scan, fuelled to make it structurally recursive; the
fuel is an upper bound on the remaining text length. -/
def substGo (fields : List String) (item : List (String × JVal)) : Nat → Str → Str
  | 0, _ => []
  | _ + 1, [] => []
  | fuel + 1, c :: rest =>
    match findPH fields (c :: rest) with
    | some f =>
      replacement item f ++ substGo fields item fuel (List.drop (placeholder f).length (c :: rest))
    | none => c :: substGo fields item fuel rest

/-- The multi-pattern replacement scan of `replace_all_with`: leftmost,
non-overlapping placeholder occurrences are replaced by the item's value.
(Placeholders of distinct fields can never overlap, because field names
contain no braces, so the leftmost scan is the Aho-Corasick semantics.) -/
def substitute (fields : List String) (item : List (String × JVal)) (s : Str) : Str :=
  substGo fields item s.length s

/-- The full substitution buffer built by `Title::format` before the
final truncation. -/
def Title.formatUB (t : Title) (item : List (String × JVal)) : Str :=
  substitute t.fields item t.haystack

/-- Model of `Title::format` (title.rs, lines 133-155): substitute all
placeholders, then truncate the buffer to `length` bytes.  `none` models
the panic of `String::truncate` off a character boundary. -/
def Title.format (t : Title) (item : List (String × JVal)) (length : Nat) : Option Str :=
  truncateBytes length (t.formatUB item)

/-! ### Basic properties of `clean` and `truncateBytes` -/

theorem cleanChar_not_illegal (c : Char) : isIllegal (cleanChar c) = false := by
  by_cases h : isIllegal c = true
  · have h2 : cleanChar c = '_' := by simp [cleanChar, h]
    rw [h2]; decide
  · simp only [Bool.not_eq_true] at h
    simp [cleanChar, h]

theorem cleanChar_idem (c : Char) : cleanChar (cleanChar c) = cleanChar c := by
  by_cases h : isIllegal c = true
  · have h2 : cleanChar c = '_' := by simp [cleanChar, h]
    rw [h2]; decide
  · simp only [Bool.not_eq_true] at h
    have h2 : cleanChar c = c := by simp [cleanChar, h]
    rw [h2, h2]

theorem utf8Len_cleanChar (c : Char) : utf8Len (cleanChar c) = utf8Len c := by
  by_cases h : isIllegal c = true
  · have h2 : cleanChar c = '_' := by simp [cleanChar, h]
    rw [h2]
    simp only [isIllegal, Bool.or_eq_true, decide_eq_true_eq] at h
    rcases h with ((((((((rfl | rfl) | rfl) | rfl) | rfl) | rfl) | rfl) | rfl) | rfl) <;> decide
  · simp only [Bool.not_eq_true] at h
    have h2 : cleanChar c = c := by simp [cleanChar, h]
    rw [h2]

theorem clean_append (a b : Str) : clean (a ++ b) = clean a ++ clean b :=
  List.map_append cleanChar a b

theorem clean_length (s : Str) : (clean s).length = s.length :=
  List.length_map s cleanChar

theorem byteLen_clean (s : Str) : byteLen (clean s) = byteLen s := by
  induction s with
  | nil => rfl
  | cons c rest ih =>
    simp only [clean, byteLen, List.map_cons, List.sum_cons] at *
    rw [utf8Len_cleanChar, ih]

theorem clean_idem (s : Str) : clean (clean s) = clean s := by
  induction s with
  | nil => rfl
  | cons c rest ih =>
    simp only [clean, List.map_cons] at *
    rw [cleanChar_idem, ih]

theorem mem_clean_not_illegal {c : Char} {s : Str} (h : c ∈ clean s) :
    isIllegal c = false := by
  simp only [clean, List.mem_map] at h
  obtain ⟨a, -, rfl⟩ := h
  exact cleanChar_not_illegal a

theorem utf8Len_pos (c : Char) : 0 < utf8Len c := by
  unfold utf8Len
  split <;> try split <;> try split
  all_goals omega

theorem truncateBytes_of_byteLen_le {s : Str} {n : Nat} (h : byteLen s ≤ n) :
    truncateBytes n s = some s := by
  induction s generalizing n with
  | nil => cases n <;> rfl
  | cons c rest ih =>
    have hc := utf8Len_pos c
    simp only [byteLen, List.map_cons, List.sum_cons] at h
    cases n with
    | zero => omega
    | succ m =>
      have h1 : utf8Len c ≤ m + 1 := by omega
      simp only [truncateBytes, h1, if_true]
      rw [ih (show byteLen rest ≤ m + 1 - utf8Len c by simp only [byteLen]; omega)]
      rfl

theorem truncateBytes_ascii {s : Str} (n : Nat) (h : ∀ c ∈ s, utf8Len c = 1) :
    truncateBytes n s = some (s.take n) := by
  induction s generalizing n with
  | nil => cases n <;> simp [truncateBytes]
  | cons c rest ih =>
    cases n with
    | zero => simp [truncateBytes]
    | succ m =>
      have hc : utf8Len c = 1 := h c (List.mem_cons_self c rest)
      have h1 : utf8Len c ≤ m + 1 := by omega
      simp only [truncateBytes, h1, if_true, hc, Nat.add_sub_cancel]
      rw [ih m (fun x hx => h x (List.mem_cons_of_mem c hx))]
      simp

theorem truncateBytes_mem {s out : Str} {n : Nat} {c : Char}
    (h : truncateBytes n s = some out) (hc : c ∈ out) : c ∈ s := by
  induction s generalizing n out with
  | nil =>
    cases n <;> simp only [truncateBytes, Option.some_inj] at h <;> subst h <;> simp at hc
  | cons a rest ih =>
    cases n with
    | zero =>
      simp only [truncateBytes, Option.some_inj] at h
      subst h; simp at hc
    | succ m =>
      simp only [truncateBytes] at h
      split at h
      · cases hm : truncateBytes (m + 1 - utf8Len a) rest with
        | none => rw [hm] at h; simp at h
        | some o =>
          rw [hm] at h
          simp only [Option.map_some', Option.some_inj] at h
          subst h
          rcases List.mem_cons.mp hc with rfl | hmem
          · exact List.mem_cons_self _ _
          · exact List.mem_cons_of_mem _ (ih hm hmem)
      · simp at h

/--
Claim C7: sanitization of file-name text is length-preserving (both in
characters and in bytes, matching Rust `len()`) and idempotent
(title.rs, `clean`, lines 158-171).
-/
theorem claim_C7 (s : Str) :
    (clean s).length = s.length ∧ byteLen (clean s) = byteLen s ∧
      clean (clean s) = clean s :=
  ⟨clean_length s, byteLen_clean s, clean_idem s⟩

/-! ### Properties of the placeholder scan -/

theorem startsWith_iff (p s : Str) : startsWith p s = true ↔ ∃ t, s = p ++ t := by
  induction p generalizing s with
  | nil => simp [startsWith]
  | cons a ps ih =>
    cases s with
    | nil => simp [startsWith]
    | cons c cs =>
      simp only [startsWith, Bool.and_eq_true, decide_eq_true_eq, ih, List.cons_append,
        List.cons.injEq]
      constructor
      · rintro ⟨rfl, t, rfl⟩
        exact ⟨t, rfl, rfl⟩
      · rintro ⟨t, rfl, rfl⟩
        exact ⟨rfl, t, rfl⟩

theorem startsWith_self_append (p t : Str) : startsWith p (p ++ t) = true :=
  (startsWith_iff p (p ++ t)).mpr ⟨t, rfl⟩

theorem containsSub_of_middle (p a b : Str) : containsSub p (a ++ (p ++ b)) = true := by
  induction a with
  | nil =>
    simp only [List.nil_append]
    cases hpb : p ++ b with
    | nil =>
      have hp : p = [] := by
        cases p with
        | nil => rfl
        | cons x xs => simp at hpb
      subst hp
      simp [containsSub, startsWith]
    | cons c cs =>
      simp only [containsSub, Bool.or_eq_true]
      left
      rw [← hpb]
      exact startsWith_self_append p b
  | cons x xs ih =>
    simp only [List.cons_append, containsSub, Bool.or_eq_true]
    right
    exact ih

theorem findPH_none_of_head {fields : List String} {c : Char} (rest : Str)
    (hc : c ≠ '{') : findPH fields (c :: rest) = none := by
  induction fields with
  | nil => rfl
  | cons f fs ih =>
    unfold findPH
    have : startsWith (placeholder f) (c :: rest) = false := by
      simp only [placeholder, List.cons_append, startsWith, Bool.and_eq_false_iff,
        decide_eq_false_iff_not]
      left
      exact fun h => hc h.symm
    rw [this]
    simpa using ih

theorem append_eq_append_of_not_mem {α} [DecidableEq α] {x : α} :
    ∀ {as bs as2 bs2 : List α}, as ++ x :: as2 = bs ++ x :: bs2 →
      x ∉ as → x ∉ bs → as = bs := by
  intro as
  induction as with
  | nil =>
    intro bs as2 bs2 h hxa hxb
    cases bs with
    | nil => rfl
    | cons b bs =>
      simp only [List.nil_append, List.cons_append, List.cons.injEq] at h
      exact absurd (h.1 ▸ List.mem_cons_self x bs) hxb
  | cons a as ih =>
    intro bs as2 bs2 h hxa hxb
    cases bs with
    | nil =>
      simp only [List.nil_append, List.cons_append, List.cons.injEq] at h
      exact absurd (h.1.symm ▸ List.mem_cons_self x as) hxa
    | cons b bs =>
      simp only [List.cons_append, List.cons.injEq] at h
      rw [List.cons_eq_cons]
      exact ⟨h.1, ih h.2 (fun hx => hxa (List.mem_cons_of_mem a hx))
        (fun hx => hxb (List.mem_cons_of_mem b hx))⟩

theorem placeholder_no_overlap {f g : String} {rest : Str}
    (hs : startsWith (placeholder g) (placeholder f ++ rest) = true)
    (hg : '}' ∉ g.data) (hf : '}' ∉ f.data) : g = f := by
  obtain ⟨t, ht⟩ := (startsWith_iff _ _).mp hs
  simp only [placeholder, List.cons_append, List.append_assoc, List.cons.injEq] at ht
  have h2 : g.data ++ '}' :: t = f.data ++ '}' :: rest := by
    simpa using ht.2.symm
  have := append_eq_append_of_not_mem h2 hg hf
  exact String.ext this

theorem findPH_placeholder {fields : List String} {f : String} (rest : Str)
    (hf : f ∈ fields) (hbrace : ∀ g ∈ fields, '}' ∉ g.data) :
    findPH fields (placeholder f ++ rest) = some f := by
  induction fields with
  | nil => simp at hf
  | cons g fs ih =>
    unfold findPH
    by_cases hs : startsWith (placeholder g) (placeholder f ++ rest) = true
    · rw [hs]
      have := placeholder_no_overlap hs (hbrace g (List.mem_cons_self g fs))
        (hbrace f hf)
      simp [this]
    · simp only [Bool.not_eq_true] at hs
      rw [hs]
      simp only [Bool.false_eq_true, if_false]
      rcases List.mem_cons.mp hf with rfl | hmem
      · rw [startsWith_self_append] at hs
        simp at hs
      · exact ih hmem (fun g hg => hbrace g (List.mem_cons_of_mem _ hg))

theorem substGo_congr (fields : List String) (item : List (String × JVal)) :
    ∀ fuel fuel' s, s.length ≤ fuel → s.length ≤ fuel' →
      substGo fields item fuel s = substGo fields item fuel' s := by
  intro fuel
  induction fuel with
  | zero =>
    intro fuel' s hs _
    have : s = [] := List.length_eq_zero.mp (Nat.le_zero.mp hs)
    subst this
    cases fuel' <;> rfl
  | succ n ih =>
    intro fuel' s hs hs'
    cases s with
    | nil => cases fuel' <;> rfl
    | cons c cs =>
      cases fuel' with
      | zero => simp at hs'
      | succ m =>
        simp only [List.length_cons, Nat.succ_le_succ_iff] at hs hs'
        unfold substGo
        cases hph : findPH fields (c :: cs) with
        | none =>
          simp only
          rw [ih m cs hs hs']
        | some f =>
          simp only
          have hlen : (List.drop (placeholder f).length (c :: cs)).length ≤ cs.length := by
            simp only [List.length_drop, List.length_cons, placeholder, List.length_cons,
              List.length_append]
            omega
          rw [ih m _ (Nat.le_trans hlen hs) (Nat.le_trans hlen hs')]

theorem substGo_eq_substitute {fields : List String} {item : List (String × JVal)}
    {fuel : Nat} {s : Str} (h : s.length ≤ fuel) :
    substGo fields item fuel s = substitute fields item s :=
  substGo_congr fields item fuel s.length s h (Nat.le_refl _)

theorem substitute_nil (fields : List String) (item : List (String × JVal)) :
    substitute fields item [] = [] := rfl

theorem substitute_cons_no_match {fields : List String} {item : List (String × JVal)}
    {c : Char} (cs : Str) (hc : c ≠ '{') :
    substitute fields item (c :: cs) = c :: substitute fields item cs := by
  show substGo fields item (c :: cs).length (c :: cs) = _
  simp only [List.length_cons]
  unfold substGo
  rw [findPH_none_of_head _ hc]
  rfl

theorem substitute_no_fields (item : List (String × JVal)) (s : Str) :
    substitute [] item s = s := by
  induction s with
  | nil => rfl
  | cons c cs ih =>
    show substGo [] item (c :: cs).length (c :: cs) = _
    simp only [List.length_cons]
    unfold substGo
    simp only [findPH]
    rw [show substGo [] item cs.length cs = substitute [] item cs from rfl, ih]

theorem substitute_copy {fields : List String} {item : List (String × JVal)}
    {l : Str} (r : Str) (hl : ∀ c ∈ l, c ≠ '{') :
    substitute fields item (l ++ r) = l ++ substitute fields item r := by
  induction l with
  | nil => rfl
  | cons c cs ih =>
    have hc : c ≠ '{' := hl c (List.mem_cons_self c cs)
    rw [List.cons_append, substitute_cons_no_match _ hc,
      ih (fun x hx => hl x (List.mem_cons_of_mem c hx)), List.cons_append]

theorem substitute_placeholder {fields : List String} {item : List (String × JVal)}
    {f : String} (rest : Str) (hf : f ∈ fields)
    (hbrace : ∀ g ∈ fields, '}' ∉ g.data) :
    substitute fields item (placeholder f ++ rest) =
      replacement item f ++ substitute fields item rest := by
  have hshape : placeholder f ++ rest = '{' :: (f.data ++ ['}'] ++ rest) := by
    simp [placeholder]
  show substGo fields item (placeholder f ++ rest).length (placeholder f ++ rest) = _
  rw [hshape, List.length_cons]
  unfold substGo
  rw [← hshape, findPH_placeholder rest hf hbrace]
  simp only
  rw [List.drop_left]
  rw [substGo_eq_substitute]
  simp only [List.length_append, List.length_cons]
  omega

/-! ### Templates as literal and placeholder chunks -/

theorem fields_no_braces : ∀ f ∈ FIELDS, '{' ∉ f.data ∧ '}' ∉ f.data := by decide

theorem fields_clean : ∀ f ∈ FIELDS, clean f.data = f.data := by decide

theorem clean_of_no_illegal {s : Str} (h : ∀ c ∈ s, isIllegal c = false) :
    clean s = s := by
  induction s with
  | nil => rfl
  | cons c cs ih =>
    simp only [clean, List.map_cons] at *
    rw [ih (fun x hx => h x (List.mem_cons_of_mem c hx))]
    have hc : cleanChar c = c := by
      simp [cleanChar, h c (List.mem_cons_self c cs)]
    rw [hc]

/-- A template decomposed into literal text and placeholder chunks. -/
inductive TChunk where
  | lit (s : Str)
  | ph (f : String)

/-- The template text denoted by a chunk list. -/
def renderT : List TChunk → Str
  | [] => []
  | .lit s :: r => s ++ renderT r
  | .ph f :: r => placeholder f ++ renderT r

/-- The substitution result for a chunk list: literal text is emitted
as-is, placeholders are replaced by the item's (cleaned) value. -/
def renderOut (item : List (String × JVal)) : List TChunk → Str
  | [] => []
  | .lit s :: r => s ++ renderOut item r
  | .ph f :: r => replacement item f ++ renderOut item r

/-- The substitution result for a raw chunk list: literal text is
sanitized (as `Title::new` does), placeholders are replaced. -/
def renderSub (item : List (String × JVal)) : List TChunk → Str
  | [] => []
  | .lit s :: r => clean s ++ renderSub item r
  | .ph f :: r => replacement item f ++ renderSub item r

/-- Well-formedness: literal chunks contain no `{` (so they contain no
placeholder and cannot start one across a boundary), and placeholder
chunks use recognized fields. -/
def WFChunks (cs : List TChunk) : Prop :=
  (∀ s, TChunk.lit s ∈ cs → '{' ∉ s) ∧ (∀ f, TChunk.ph f ∈ cs → f ∈ FIELDS)

/-- Sanitization as a transformation of chunks. -/
def cleanChunk : TChunk → TChunk
  | .lit s => .lit (clean s)
  | .ph f => .ph f

theorem clean_placeholder {f : String} (hf : f ∈ FIELDS) :
    clean (placeholder f) = placeholder f := by
  have h1 : cleanChar '{' = '{' := by decide
  have h2 : cleanChar '}' = '}' := by decide
  simp only [placeholder, clean, List.map_cons, List.map_append, List.map_nil, h1, h2]
  rw [show List.map cleanChar f.data = clean f.data from rfl, fields_clean f hf]

theorem clean_renderT {cs : List TChunk} (hWF : WFChunks cs) :
    clean (renderT cs) = renderT (cs.map cleanChunk) := by
  induction cs with
  | nil => rfl
  | cons c rest ih =>
    have hWF2 : WFChunks rest :=
      ⟨fun s hs => hWF.1 s (List.mem_cons_of_mem c hs),
       fun f hf => hWF.2 f (List.mem_cons_of_mem c hf)⟩
    cases c with
    | lit s =>
      simp only [renderT, List.map_cons, cleanChunk, clean_append, ih hWF2]
    | ph f =>
      simp only [renderT, List.map_cons, cleanChunk, clean_append, ih hWF2,
        clean_placeholder (hWF.2 f (List.mem_cons_self _ _))]

theorem clean_no_brace {s : Str} (h : '{' ∉ s) : '{' ∉ clean s := by
  intro hc
  simp only [clean, List.mem_map] at hc
  obtain ⟨a, ha, hac⟩ := hc
  by_cases hi : isIllegal a = true
  · simp [cleanChar, hi] at hac
  · simp only [Bool.not_eq_true] at hi
    simp only [cleanChar, hi, Bool.false_eq_true, if_false] at hac
    exact h (hac ▸ ha)

theorem renderT_middle_of_ph {cs : List TChunk} {f : String}
    (h : TChunk.ph f ∈ cs) : ∃ a b, renderT cs = a ++ (placeholder f ++ b) := by
  induction cs with
  | nil => simp at h
  | cons c rest ih =>
    rcases List.mem_cons.mp h with rfl | hmem
    · exact ⟨[], renderT rest, rfl⟩
    · obtain ⟨a, b, hab⟩ := ih hmem
      cases c with
      | lit s => exact ⟨s ++ a, b, by simp [renderT, hab]⟩
      | ph g => exact ⟨placeholder g ++ a, b, by simp [renderT, hab]⟩

theorem ph_mem_compiled {cs : List TChunk} {f : String} (hWF : WFChunks cs)
    (h : TChunk.ph f ∈ cs) :
    f ∈ (Title.new (renderT cs)).fields := by
  simp only [Title.new, List.mem_filter]
  refine ⟨hWF.2 f h, ?_⟩
  rw [clean_renderT hWF]
  have h2 : TChunk.ph f ∈ cs.map cleanChunk := List.mem_map.mpr ⟨TChunk.ph f, h, rfl⟩
  obtain ⟨a, b, hab⟩ := renderT_middle_of_ph h2
  rw [hab]
  exact containsSub_of_middle _ _ _

theorem substitute_render {F : List String} {item : List (String × JVal)}
    (hbrace : ∀ g ∈ F, '}' ∉ g.data) :
    ∀ cs : List TChunk, (∀ s, TChunk.lit s ∈ cs → '{' ∉ s) →
      (∀ f, TChunk.ph f ∈ cs → f ∈ F) →
      substitute F item (renderT cs) = renderOut item cs := by
  intro cs
  induction cs with
  | nil => intro _ _; rfl
  | cons c rest ih =>
    intro hlit hph
    have ih2 := ih (fun s hs => hlit s (List.mem_cons_of_mem c hs))
      (fun f hf => hph f (List.mem_cons_of_mem c hf))
    cases c with
    | lit s =>
      simp only [renderT, renderOut]
      rw [substitute_copy _ (fun x hx h => (hlit s (List.mem_cons_self _ _)) (h ▸ hx)), ih2]
    | ph f =>
      simp only [renderT, renderOut]
      rw [substitute_placeholder _ (hph f (List.mem_cons_self _ _)) hbrace, ih2]

theorem renderOut_clean_chunks (item : List (String × JVal)) (cs : List TChunk) :
    renderOut item (cs.map cleanChunk) = renderSub item cs := by
  induction cs with
  | nil => rfl
  | cons c rest ih =>
    cases c with
    | lit s => simp only [List.map_cons, cleanChunk, renderOut, renderSub, ih]
    | ph f => simp only [List.map_cons, cleanChunk, renderOut, renderSub, ih]

/-- The compiled template built from a well-formed chunk list formats an
item to exactly the chunkwise substitution: sanitized literals, cleaned
values for placeholders. -/
theorem formatUB_chunks {cs : List TChunk} (item : List (String × JVal))
    (hWF : WFChunks cs) :
    (Title.new (renderT cs)).formatUB item = renderSub item cs := by
  have hb : ∀ g ∈ (Title.new (renderT cs)).fields, '}' ∉ g.data := by
    intro g hg
    have hgF : g ∈ FIELDS := by
      simp only [Title.new, List.mem_filter] at hg
      exact hg.1
    exact (fields_no_braces g hgF).2
  have hl : ∀ s, TChunk.lit s ∈ cs.map cleanChunk → '{' ∉ s := by
    intro s hs
    simp only [List.mem_map] at hs
    obtain ⟨c, hc, hcs⟩ := hs
    cases c with
    | lit t =>
      simp only [cleanChunk, TChunk.lit.injEq] at hcs
      subst hcs
      exact clean_no_brace (hWF.1 t hc)
    | ph g => simp [cleanChunk] at hcs
  have hp : ∀ f, TChunk.ph f ∈ cs.map cleanChunk → f ∈ (Title.new (renderT cs)).fields := by
    intro f hf
    simp only [List.mem_map] at hf
    obtain ⟨c, hc, hcs⟩ := hf
    cases c with
    | lit t => simp [cleanChunk] at hcs
    | ph g =>
      simp only [cleanChunk, TChunk.ph.injEq] at hcs
      subst hcs
      exact ph_mem_compiled hWF hc
  show substitute (Title.new (renderT cs)).fields item (clean (renderT cs)) = _
  rw [clean_renderT hWF]
  rw [substitute_render hb (cs.map cleanChunk) hl hp, renderOut_clean_chunks]

/-! ### Claim C3: templates without placeholders -/

/--
Claim C3 as stated is false: for a template with no recognized
placeholder, `format` does not return the template text unchanged —
`Title::new` sanitizes the template at compile time, so the literal
character `/` of the template `a/b` is altered to `_` even though no
placeholder is involved and the budget does not truncate.
-/
theorem claim_C3_counterexample :
    (Title.new "a/b".data).format [] 5 = some "a_b".data ∧
      "a_b".data ≠ "a/b".data := by
  constructor
  · decide
  · decide

/--
Claim C3 (amended): for every template whose compiled formatter has no
recognized placeholder, every item and every length budget `L`, `format`
returns the *sanitized* template truncated to `L` bytes; when the
template contains none of the nine illegal file-name characters it is
returned unchanged apart from the truncation.
-/
theorem claim_C3 (tpl : Str) (item : List (String × JVal)) (L : Nat)
    (hph : (Title.new tpl).fields = []) :
    (Title.new tpl).format item L = truncateBytes L (clean tpl) ∧
      ((∀ c ∈ tpl, isIllegal c = false) →
        (Title.new tpl).format item L = truncateBytes L tpl) := by
  have hub : (Title.new tpl).formatUB item = clean tpl := by
    show substitute (Title.new tpl).fields item (clean tpl) = clean tpl
    rw [hph, substitute_no_fields]
  constructor
  · show truncateBytes L ((Title.new tpl).formatUB item) = _
    rw [hub]
  · intro hno
    show truncateBytes L ((Title.new tpl).formatUB item) = _
    rw [hub, clean_of_no_illegal hno]

/-- Witness for the amended claim C3, at the template of the Rust test
`format_no_fields`. -/
theorem claim_C3_witness :
    (Title.new "Lorem ipsum".data).format [] 15 =
        truncateBytes 15 (clean "Lorem ipsum".data) ∧
      ((∀ c ∈ "Lorem ipsum".data, isIllegal c = false) →
        (Title.new "Lorem ipsum".data).format [] 15 =
          truncateBytes 15 "Lorem ipsum".data) :=
  claim_C3 "Lorem ipsum".data [] 15 (by decide)

/-! ### Claim C10: sanitization of the format output -/

theorem substGo_illegal_free (fields : List String) (item : List (String × JVal)) :
    ∀ (fuel : Nat) (hay : Str), (∀ c ∈ hay, isIllegal c = false) →
      ∀ c ∈ substGo fields item fuel hay, isIllegal c = false := by
  intro fuel
  induction fuel with
  | zero =>
    intro hay hh c hc
    simp [substGo] at hc
  | succ n ih =>
    intro hay hh c hc
    cases hay with
    | nil => simp [substGo] at hc
    | cons a rest =>
      unfold substGo at hc
      cases hph : findPH fields (a :: rest) with
      | some f =>
        rw [hph] at hc
        simp only [List.mem_append] at hc
        rcases hc with hc | hc
        · unfold replacement at hc
          cases hg : getField item f with
          | null => rw [hg] at hc; simp at hc
          | str s => rw [hg] at hc; exact mem_clean_not_illegal hc
          | other r => rw [hg] at hc; exact mem_clean_not_illegal hc
        · exact ih _ (fun x hx => hh x (List.drop_subset _ _ hx)) c hc
      | none =>
        rw [hph] at hc
        rcases List.mem_cons.mp hc with rfl | hc
        · exact hh c (List.mem_cons_self _ _)
        · exact ih rest (fun x hx => hh x (List.mem_cons_of_mem _ hx)) c hc

/--
Claim C10: for every compiled template, item and budget, a string
returned by `format` contains none of the characters
`/ \\ | ? < > : * "` — sanitization reaches the template's literal text
(applied by `Title::new`), string field values, and stringified
non-string values (title.rs, lines 96-118, 133-155, 158-171).
-/
theorem claim_C10 (tpl : Str) (item : List (String × JVal)) (L : Nat) (out : Str)
    (hout : (Title.new tpl).format item L = some out) :
    ∀ c ∈ out, isIllegal c = false := by
  intro c hc
  have hub : ∀ x ∈ (Title.new tpl).formatUB item, isIllegal x = false := by
    intro x hx
    have hhay : ∀ y ∈ clean tpl, isIllegal y = false :=
      fun y hy => mem_clean_not_illegal hy
    exact substGo_illegal_free _ _ _ _ hhay x hx
  exact hub c (truncateBytes_mem hout hc)

/-- Witness for claim C10: a template with an illegal literal character
and an item with an illegal value character, evaluated concretely. -/
theorem claim_C10_witness : isIllegal 'x' = false :=
  claim_C10 "a/b{title}".data [("title", JVal.str "x:y".data)] 10 "a_bx_y".data
    (by decide) 'x' (by decide)

/-! ### Claim C4: absent and null fields -/

/-- Decidable form of `WFChunks`. -/
def WFChunksB (cs : List TChunk) : Bool :=
  cs.all fun c =>
    match c with
    | .lit s => decide ('{' ∉ s)
    | .ph f => decide (f ∈ FIELDS)

/-- Whether every placeholder of `cs` refers to a field that is null or
absent in `item`. -/
def nullFieldsB (item : List (String × JVal)) (cs : List TChunk) : Bool :=
  cs.all fun c =>
    match c with
    | .lit _ => true
    | .ph f => decide (getField item f = JVal.null)

/-- Whether every literal chunk consists of one-byte (ASCII) characters. -/
def asciiLitsB (cs : List TChunk) : Bool :=
  cs.all fun c =>
    match c with
    | .lit s => s.all fun ch => decide (utf8Len ch = 1)
    | .ph _ => true

/-- The substitution result when every placeholder field is null: the
sanitized literal text with placeholders contributing nothing. -/
def nullRender : List TChunk → Str
  | [] => []
  | .lit s :: r => clean s ++ nullRender r
  | .ph _ :: r => nullRender r

theorem WFChunksB_sound {cs : List TChunk} (h : WFChunksB cs = true) : WFChunks cs := by
  rw [WFChunksB, List.all_eq_true] at h
  constructor
  · intro s hs
    have := h _ hs
    simpa using this
  · intro f hf
    have := h _ hf
    simpa using this

theorem nullFieldsB_sound {item : List (String × JVal)} {cs : List TChunk}
    (h : nullFieldsB item cs = true) :
    ∀ f, TChunk.ph f ∈ cs → getField item f = JVal.null := by
  rw [nullFieldsB, List.all_eq_true] at h
  intro f hf
  have := h _ hf
  simpa using this

theorem asciiLitsB_sound {cs : List TChunk} (h : asciiLitsB cs = true) :
    ∀ s, TChunk.lit s ∈ cs → ∀ c ∈ s, utf8Len c = 1 := by
  rw [asciiLitsB, List.all_eq_true] at h
  intro s hs c hc
  have := h _ hs
  rw [List.all_eq_true] at this
  simpa using this c hc

theorem renderSub_null {item : List (String × JVal)} {cs : List TChunk}
    (h : ∀ f, TChunk.ph f ∈ cs → getField item f = JVal.null) :
    renderSub item cs = nullRender cs := by
  induction cs with
  | nil => rfl
  | cons c rest ih =>
    have ih2 := ih (fun f hf => h f (List.mem_cons_of_mem c hf))
    cases c with
    | lit s => simp only [renderSub, nullRender, ih2]
    | ph f =>
      simp only [renderSub, nullRender, ih2, replacement,
        h f (List.mem_cons_self _ _), List.nil_append]

theorem nullRender_ascii {cs : List TChunk}
    (h : ∀ s, TChunk.lit s ∈ cs → ∀ c ∈ s, utf8Len c = 1) :
    ∀ c ∈ nullRender cs, utf8Len c = 1 := by
  induction cs with
  | nil => intro c hc; simp [nullRender] at hc
  | cons ck rest ih =>
    have ih2 := ih (fun s hs => h s (List.mem_cons_of_mem ck hs))
    intro c hc
    cases ck with
    | lit s =>
      simp only [nullRender, List.mem_append] at hc
      rcases hc with hc | hc
      · simp only [clean, List.mem_map] at hc
        obtain ⟨a, ha, rfl⟩ := hc
        rw [utf8Len_cleanChar]
        exact h s (List.mem_cons_self _ _) a ha
      · exact ih2 c hc
    | ph f => exact ih2 c hc

/--
Claim C4 as stated is false on two counts, both witnessed concretely:
with the placeholder field absent (hence null), (i) the literal text
around the placeholder is still altered by sanitization (`a/` becomes
`a_` in template `a/{test}b`), and (ii) `format` can panic — with
template `ä{test}` and budget 1, `String::truncate` is applied off a
character boundary (modelled as `none`).
-/
theorem claim_C4_counterexample :
    (Title.new "a/{test}b".data).format [] 10 = some "a_b".data ∧
      "a_b".data ≠ "a/b".data ∧
      (Title.new "ä{test}".data).format [] 1 = none := by
  refine ⟨by decide, by decide, by decide⟩

/--
Claim C4 (amended): for every well-formed template (literal text free of
`{`, placeholders from the recognized vocabulary), every item whose
referenced fields are all absent or null, and every budget `L`: `format`
substitutes the empty string for each placeholder; the substitution
buffer is exactly the sanitized literal text, neither shortened nor
otherwise altered, before the final truncation; and `format` returns
(does not panic) whenever the literal text is ASCII, yielding that text
truncated to `L`.
-/
theorem claim_C4 (cs : List TChunk) (item : List (String × JVal)) (L : Nat)
    (hWF : WFChunksB cs = true) (hnull : nullFieldsB item cs = true) :
    (Title.new (renderT cs)).formatUB item = nullRender cs ∧
      (Title.new (renderT cs)).format item L = truncateBytes L (nullRender cs) ∧
      (asciiLitsB cs = true →
        (Title.new (renderT cs)).format item L = some ((nullRender cs).take L)) := by
  have hub : (Title.new (renderT cs)).formatUB item = nullRender cs := by
    rw [formatUB_chunks item (WFChunksB_sound hWF)]
    exact renderSub_null (nullFieldsB_sound hnull)
  refine ⟨hub, ?_, ?_⟩
  · show truncateBytes L ((Title.new (renderT cs)).formatUB item) = _
    rw [hub]
  · intro hascii
    show truncateBytes L ((Title.new (renderT cs)).formatUB item) = _
    rw [hub]
    exact truncateBytes_ascii L (nullRender_ascii (asciiLitsB_sound hascii))

/-- Witness for the amended claim C4, at the chunk form of the template
`Lorem{test}ipsum` of the Rust test `format_null_field`. -/
theorem claim_C4_witness :
    (Title.new (renderT [TChunk.lit "Lorem".data, TChunk.ph "test",
        TChunk.lit "ipsum".data])).formatUB [] =
      nullRender [TChunk.lit "Lorem".data, TChunk.ph "test", TChunk.lit "ipsum".data] ∧
      (Title.new (renderT [TChunk.lit "Lorem".data, TChunk.ph "test",
        TChunk.lit "ipsum".data])).format [] 15 =
        truncateBytes 15 (nullRender [TChunk.lit "Lorem".data, TChunk.ph "test",
          TChunk.lit "ipsum".data]) ∧
      (asciiLitsB [TChunk.lit "Lorem".data, TChunk.ph "test",
          TChunk.lit "ipsum".data] = true →
        (Title.new (renderT [TChunk.lit "Lorem".data, TChunk.ph "test",
          TChunk.lit "ipsum".data])).format [] 15 =
          some ((nullRender [TChunk.lit "Lorem".data, TChunk.ph "test",
            TChunk.lit "ipsum".data]).take 15)) :=
  claim_C4 [TChunk.lit "Lorem".data, TChunk.ph "test", TChunk.lit "ipsum".data]
    [] 15 (by decide) (by decide)

/-! ### Claim C9: uniqueness of generated file names -/

/-- The file-name construction of the coordinator (subreddit.rs, lines
136-141): the title is formatted with the budget reduced by the
extension's byte length, then the extension is appended.  `none` models
the two reachable panics: `usize` underflow when the budget is smaller
than the extension, and the truncation panic inside `format`. -/
def buildName (t : Title) (item : List (String × JVal)) (maxLen : Nat) (ext : Str) :
    Option Str :=
  if maxLen < byteLen ext then none
  else (t.format item (maxLen - byteLen ext)).map (· ++ ext)

/-- The chunk form of the default title template `{id}-{title}`. -/
def defaultChunks : List TChunk :=
  [TChunk.ph "id", TChunk.lit ['-'], TChunk.ph "title"]

/--
Claim C9 as stated is false: under the convention `{id}-{title}` plus
extension, truncation to the length budget can erase the distinguishing
part of the id.  With budget 5 and extension `.txt` the title budget is
1 byte, so the distinct ids `aa` and `ab` both produce the file name
`a.txt`.
-/
theorem claim_C9_counterexample :
    buildName (Title.new "{id}-{title}".data)
        [("id", JVal.str "aa".data)] 5 ".txt".data =
      buildName (Title.new "{id}-{title}".data)
        [("id", JVal.str "ab".data)] 5 ".txt".data ∧
      ("aa".data : Str) ≠ "ab".data := by
  refine ⟨by decide, by decide⟩

/--
Claim C9 (amended): file names produced under the convention
`{id}-{sanitized-title}{extension}` are distinct for distinct ids,
provided the ids contain no `-` and no illegal character, and the budget
is large enough that truncation removes nothing (the formatted name fits
in the budget minus the extension).
-/
theorem claim_C9 (id1 id2 t1 t2 : Str) (L : Nat) (ext : Str)
    (hne : id1 ≠ id2)
    (hdash1 : '-' ∉ id1) (hdash2 : '-' ∉ id2)
    (hclean1 : clean id1 = id1) (hclean2 : clean id2 = id2)
    (hext : byteLen ext ≤ L)
    (hfit1 : byteLen (id1 ++ '-' :: clean t1) ≤ L - byteLen ext)
    (hfit2 : byteLen (id2 ++ '-' :: clean t2) ≤ L - byteLen ext) :
    buildName (Title.new "{id}-{title}".data)
        [("id", JVal.str id1), ("title", JVal.str t1)] L ext ≠
      buildName (Title.new "{id}-{title}".data)
        [("id", JVal.str id2), ("title", JVal.str t2)] L ext := by
  have hrt : renderT defaultChunks = "{id}-{title}".data := by decide
  have hname : ∀ (i t : Str), clean i = i →
      byteLen (i ++ '-' :: clean t) ≤ L - byteLen ext →
      buildName (Title.new "{id}-{title}".data)
          [("id", JVal.str i), ("title", JVal.str t)] L ext =
        some ((i ++ '-' :: clean t) ++ ext) := by
    intro i t hcl hfit
    have hgid : getField [("id", JVal.str i), ("title", JVal.str t)] "id"
        = JVal.str i := by simp [getField]
    have hgt : getField [("id", JVal.str i), ("title", JVal.str t)] "title"
        = JVal.str t := by simp [getField]
    have hrid : replacement [("id", JVal.str i), ("title", JVal.str t)] "id" = i := by
      unfold replacement
      rw [hgid]
      exact hcl
    have hrtitle : replacement [("id", JVal.str i), ("title", JVal.str t)] "title"
        = clean t := by
      unfold replacement
      rw [hgt]
    have hub : (Title.new "{id}-{title}".data).formatUB
        [("id", JVal.str i), ("title", JVal.str t)] = i ++ '-' :: clean t := by
      rw [← hrt, formatUB_chunks _ (WFChunksB_sound (by decide))]
      show replacement _ "id" ++ (clean ['-'] ++ (replacement _ "title" ++ [])) = _
      rw [hrid, hrtitle]
      simp [clean, cleanChar, isIllegal]
    unfold buildName
    rw [if_neg (by omega)]
    show ((Title.new "{id}-{title}".data).format _ (L - byteLen ext)).map _ = _
    rw [Title.format, hub, truncateBytes_of_byteLen_le hfit]
    rfl
  rw [hname id1 t1 hclean1 hfit1, hname id2 t2 hclean2 hfit2]
  intro heq
  simp only [Option.some_inj] at heq
  have heq2 : id1 ++ '-' :: clean t1 = id2 ++ '-' :: clean t2 := by
    have hl : (id1 ++ '-' :: clean t1).length = (id2 ++ '-' :: clean t2).length := by
      have h3 := congrArg List.length heq
      simp only [List.length_append] at h3 ⊢
      omega
    exact (List.append_inj heq hl).1
  exact hne (append_eq_append_of_not_mem heq2 hdash1 hdash2)

/-- Witness for the amended claim C9 at concrete distinct ids. -/
theorem claim_C9_witness :
    buildName (Title.new "{id}-{title}".data)
        [("id", JVal.str "aa".data), ("title", JVal.str "x".data)] 20 ".txt".data ≠
      buildName (Title.new "{id}-{title}".data)
        [("id", JVal.str "bb".data), ("title", JVal.str "x".data)] 20 ".txt".data :=
  claim_C9 "aa".data "bb".data "x".data "x".data 20 ".txt".data
    (by decide) (by decide) (by decide) (by decide) (by decide)
    (by decide) (by decide) (by decide)

/-! ### Claim C8: file-extension resolution -/

/-- The `--gfycat-type` choice (sites/gfycat.rs, `GfycatType`). -/
inductive GfycatTy where
  | mp4
  | webm
deriving DecidableEq

/-- A parsed URL, reduced to the two components `file_extension`
inspects: the host and the path. -/
structure ModelUri where
  host : Option String
  path : Str

/-- The backward scan of `file_extension` (sites/mod.rs, lines 172-183):
walk the path from the end; at a `.` return the suffix from that index,
at a `/` give up.  `rev` is the still-unscanned part of the path in
reverse; `acc` is the already-scanned suffix. -/
def extScan : Str → Str → Option Str
  | [], _ => none
  | c :: rest, acc =>
    if c = '.' then some (c :: acc)
    else if c = '/' then none
    else extScan rest (c :: acc)

/-- Model of `file_extension` (sites/mod.rs, lines 156-184). -/
def fileExtension (url : ModelUri) (g : GfycatTy) (isSelf : Bool) : Option Str :=
  if isSelf then some ".txt".data
  else if url.host = some "v.redd.it" then some ".mp4".data
  else if url.host = some "gfycat.com" then
    match g with
    | .mp4 => some ".mp4".data
    | .webm => some ".webm".data
  else extScan url.path.reverse []

theorem extScan_some_iff (rev : Str) :
    ∀ acc e, extScan rev acc = some e ↔
      ∃ b1 b2, rev = b1 ++ '.' :: b2 ∧ '.' ∉ b1 ∧ '/' ∉ b1 ∧
        e = '.' :: (b1.reverse ++ acc) := by
  induction rev with
  | nil =>
    intro acc e
    simp only [extScan]
    constructor
    · intro h; simp at h
    · rintro ⟨b1, b2, hb, -, -, -⟩
      simp at hb
  | cons c rest ih =>
    intro acc e
    by_cases hdot : c = '.'
    · subst hdot
      simp only [extScan, eq_self_iff_true, if_true]
      constructor
      · intro h
        refine ⟨[], rest, rfl, by simp, by simp, ?_⟩
        simpa using h.symm
      · rintro ⟨b1, b2, hb, hdot1, hslash1, he⟩
        cases b1 with
        | nil =>
          simp only [List.nil_append, List.cons.injEq] at hb
          simp only [List.reverse_nil, List.nil_append] at he
          rw [he]
        | cons x xs =>
          simp only [List.cons_append, List.cons.injEq] at hb
          exact absurd (by rw [hb.1]; exact List.mem_cons_self _ _) hdot1
    · by_cases hslash : c = '/'
      · subst hslash
        simp only [extScan, if_neg (by decide : ¬('/' : Char) = '.'), eq_self_iff_true, if_true]
        constructor
        · intro h; simp at h
        · rintro ⟨b1, b2, hb, hdot1, hslash1, he⟩
          cases b1 with
          | nil =>
            simp only [List.nil_append, List.cons.injEq] at hb
            exact absurd hb.1 (by decide)
          | cons x xs =>
            simp only [List.cons_append, List.cons.injEq] at hb
            exact absurd (by rw [hb.1]; exact List.mem_cons_self _ _) hslash1
      · simp only [extScan, if_neg hdot, if_neg hslash]
        rw [ih (c :: acc) e]
        constructor
        · rintro ⟨b1, b2, hb, hdot1, hslash1, he⟩
          refine ⟨c :: b1, b2, by rw [hb, List.cons_append], ?_, ?_, ?_⟩
          · intro hmem
            rcases List.mem_cons.mp hmem with h | h
            · exact hdot h.symm
            · exact hdot1 h
          · intro hmem
            rcases List.mem_cons.mp hmem with h | h
            · exact hslash h.symm
            · exact hslash1 h
          · rw [he]
            simp
        · rintro ⟨b1, b2, hb, hdot1, hslash1, he⟩
          cases b1 with
          | nil =>
            simp only [List.nil_append, List.cons.injEq] at hb
            exact absurd hb.1 hdot
          | cons x xs =>
            simp only [List.cons_append, List.cons.injEq] at hb
            have hx : x = c := hb.1.symm
            subst hx
            refine ⟨xs, b2, hb.2, fun h => hdot1 (List.mem_cons_of_mem x h),
              fun h => hslash1 (List.mem_cons_of_mem x h), ?_⟩
            rw [he]
            simp

theorem extScan_path_iff (p e : Str) :
    extScan p.reverse [] = some e ↔
      ∃ a b, p = a ++ '.' :: b ∧ '.' ∉ b ∧ '/' ∉ b ∧ e = '.' :: b := by
  rw [extScan_some_iff]
  constructor
  · rintro ⟨b1, b2, hb, hdot, hslash, he⟩
    refine ⟨b2.reverse, b1.reverse, ?_, by simpa using hdot,
      by simpa using hslash, by simpa using he⟩
    have h2 := congrArg List.reverse hb
    simp only [List.reverse_reverse, List.reverse_append, List.reverse_cons] at h2
    rw [h2]
    simp
  · rintro ⟨a, b, rfl, hdot, hslash, rfl⟩
    refine ⟨b.reverse, a.reverse, ?_, by simpa using hdot,
      by simpa using hslash, by simp⟩
    simp [List.reverse_append]

/--
Claim C8: `file_extension` returns the fixed `.txt` for a self post
regardless of host; otherwise `.mp4` for host `v.redd.it` and the
configured video extension for host `gfycat.com`; for every other host
it returns the trailing dot-suffix of the final path segment — the
suffix from the last `.` that lies after the last `/` — and `None` when
that segment has no dot or the path ends in a separator
(sites/mod.rs, lines 156-184).
-/
theorem claim_C8 (url : ModelUri) (g : GfycatTy) (isSelf : Bool) :
    (isSelf = true → fileExtension url g isSelf = some ".txt".data) ∧
    (isSelf = false → url.host = some "v.redd.it" →
      fileExtension url g isSelf = some ".mp4".data) ∧
    (isSelf = false → url.host = some "gfycat.com" →
      fileExtension url g isSelf =
        some (match g with | .mp4 => ".mp4".data | .webm => ".webm".data)) ∧
    (isSelf = false → url.host ≠ some "v.redd.it" → url.host ≠ some "gfycat.com" →
      (∀ e, fileExtension url g isSelf = some e ↔
        ∃ a b, url.path = a ++ '.' :: b ∧ '.' ∉ b ∧ '/' ∉ b ∧ e = '.' :: b) ∧
      (fileExtension url g isSelf = none ↔
        ¬ ∃ a b, url.path = a ++ '.' :: b ∧ '.' ∉ b ∧ '/' ∉ b)) := by
  refine ⟨?_, ?_, ?_, ?_⟩
  · intro hs
    simp [fileExtension, hs]
  · intro hs hv
    simp [fileExtension, hs, hv]
  · intro hs hgf
    have hv : url.host ≠ some "v.redd.it" := by
      rw [hgf]
      simp
    simp only [fileExtension, hs, Bool.false_eq_true, if_false, hv, hgf, if_true]
    cases g <;> simp
  · intro hs hv hgf
    have hfe : fileExtension url g isSelf = extScan url.path.reverse [] := by
      simp [fileExtension, hs, hv, hgf]
    constructor
    · intro e
      rw [hfe]
      exact extScan_path_iff url.path e
    · rw [hfe]
      constructor
      · intro hnone hex
        obtain ⟨a, b, hab, hdot, hslash⟩ := hex
        have h2 := (extScan_path_iff url.path ('.' :: b)).mpr ⟨a, b, hab, hdot, hslash, rfl⟩
        rw [hnone] at h2
        exact Option.noConfusion h2
      · intro hnex
        cases hres : extScan url.path.reverse [] with
        | none => rfl
        | some e =>
          obtain ⟨a, b, hab, hdot, hslash, -⟩ := (extScan_path_iff url.path e).mp hres
          exact absurd ⟨a, b, hab, hdot, hslash⟩ hnex

/-- Witness for claim C8 at concrete URLs: a generic host with a dotted
final segment, and the `v.redd.it` host. -/
theorem claim_C8_witness :
    fileExtension ⟨some "example.com", "/a/b.c".data⟩ GfycatTy.mp4 false =
        some ".c".data ∧
      fileExtension ⟨some "v.redd.it", "/xyz".data⟩ GfycatTy.mp4 false =
        some ".mp4".data :=
  ⟨(((claim_C8 ⟨some "example.com", "/a/b.c".data⟩ GfycatTy.mp4 false).2.2.2 rfl
        (by decide) (by decide)).1 ".c".data).mpr
      ⟨"/a/b".data, "c".data, by decide, by decide, by decide, by decide⟩,
    (claim_C8 ⟨some "v.redd.it", "/xyz".data⟩ GfycatTy.mp4 false).2.1 rfl rfl⟩

/-! ### Claim C6: strategy dispatch -/

/-- The download strategies of `fetch`, one per arm (sites/mod.rs,
lines 76-139). -/
inductive Strategy where
  | selfpost
  | selfpostMissing
  | redditImage
  | redditVideo
  | imgurImage
  | imgurAlbum
  | gfycat
  | redgifs
  | gfycatGiant
  | gfycatThumbs
  | pinterest
  | postimages
  | forceDownload
  | unsupported
deriving DecidableEq

/-- The supported-domain set (sites/mod.rs: match arms of `fetch`,
lines 91-131, in agreement with `supported_domains`, lines 187-201). -/
def supportedDomains : List String :=
  ["i.redd.it", "v.redd.it", "i.imgur.com", "imgur.com", "gfycat.com",
   "thumbs.gfycat.com", "giant.gfycat.com", "redgifs.com",
   "thumbs1.redgifs.com", "i.pinimg.com", "i.postimg.cc"]

/-- The strategy selection of `fetch` (sites/mod.rs, lines 73-143):
self posts bypass host dispatch entirely (writing the text, or failing
when `selftext` is missing); otherwise the `domain` string is matched
against the closed set of supported hosts; an unmatched host downloads
the raw body when force mode is on and fails otherwise. -/
def dispatch (isSelf : Bool) (hasText : Bool) (force : Bool) (domain : String) : Strategy :=
  if isSelf then
    if hasText then .selfpost else .selfpostMissing
  else if domain = "i.redd.it" then .redditImage
  else if domain = "v.redd.it" then .redditVideo
  else if domain = "i.imgur.com" then .imgurImage
  else if domain = "imgur.com" then .imgurAlbum
  else if domain = "gfycat.com" then .gfycat
  else if domain = "redgifs.com" then .redgifs
  else if domain = "giant.gfycat.com" then .gfycatGiant
  else if domain = "thumbs.gfycat.com" ∨ domain = "thumbs1.redgifs.com" then .gfycatThumbs
  else if domain = "i.pinimg.com" then .pinterest
  else if domain = "i.postimg.cc" then .postimages
  else if force then .forceDownload
  else .unsupported

/-- The host-specific strategies: every arm of the domain match other
than the fallback. -/
def hostStrategies : List Strategy :=
  [.redditImage, .redditVideo, .imgurImage, .imgurAlbum, .gfycat, .redgifs,
   .gfycatGiant, .gfycatThumbs, .pinterest, .postimages]

/--
Claim C6: for a non-self post whose domain is outside the supported set,
`fetch` fails with the unsupported-domain error when force mode is off
and performs a raw direct download when it is on; for a domain inside
the set, exactly one host-specific strategy is selected, independent of
the force flag and of the self-text (sites/mod.rs, lines 73-143).
-/
theorem claim_C6 (domain : String) (force hasText : Bool) :
    (domain ∉ supportedDomains →
      dispatch false hasText force domain =
        if force then Strategy.forceDownload else Strategy.unsupported) ∧
    (domain ∈ supportedDomains →
      dispatch false hasText force domain ∈ hostStrategies ∧
      ∀ force2 hasText2, dispatch false hasText2 force2 domain =
        dispatch false hasText force domain) := by
  constructor
  · intro hd
    simp only [supportedDomains, List.mem_cons, List.mem_singleton, not_or] at hd
    obtain ⟨h1, h2, h3, h4, h5, h6, h7, h8, h9, h10, h11⟩ := hd
    simp [dispatch, h1, h2, h3, h4, h5, h6, h7, h8, h9, h10, h11]
  · intro hd
    simp only [supportedDomains, List.mem_cons, List.not_mem_nil, or_false] at hd
    rcases hd with rfl | rfl | rfl | rfl | rfl | rfl | rfl | rfl | rfl | rfl | rfl <;>
      exact ⟨by simp [dispatch, hostStrategies], fun f2 h2 => by simp [dispatch]⟩

/-- Witness for claim C6: an unsupported domain with and without force
mode, and one supported domain. -/
theorem claim_C6_witness :
    dispatch false true false "unknown.example" = Strategy.unsupported ∧
      dispatch false true true "unknown.example" = Strategy.forceDownload ∧
      dispatch false true false "i.imgur.com" ∈ hostStrategies := by
  refine ⟨?_, ?_, ((claim_C6 "i.imgur.com" false true).2 (by decide)).1⟩
  · have h := (claim_C6 "unknown.example" false true).1 (by decide)
    simpa using h
  · have h := (claim_C6 "unknown.example" true true).1 (by decide)
    simpa using h

/-! ### Claim C5: pagination cursor and termination -/

/-- A post as the paginator sees it: its id and `created_utc`. -/
structure SPost where
  id : String
  ts : Nat
deriving DecidableEq

/-- The items of the dataset still eligible under the cursor: all of
them when no bound is set, otherwise those strictly older. -/
def candidates (ds : List SPost) (before : Option Nat) : List SPost :=
  match before with
  | none => ds
  | some b => ds.filter fun p => decide (p.ts < b)

/-- Modelled from the spec: the Pushshift search endpoint (an external
service, not code of this repository).  Per §6, a query returns at most
`size` items of the finite backing dataset `ds` (served newest-first)
that are strictly older than the `before` bound when one is given. -/
def serverPage (size : Nat) (ds : List SPost) (before : Option Nat) : List SPost :=
  (candidates ds before).take size

/-- The cursor update of `api` (sites/pushshift.rs, lines 168-176): a
non-empty page moves `before` to the `created_utc` of its last (oldest)
item; an empty page leaves it unchanged. -/
def apiCursor (posts : List SPost) (before : Option Nat) : Option Nat :=
  match posts.getLast? with
  | some p => some p.ts
  | none => before

theorem length_filter_le_of_imp {α} (p q : α → Bool) (l : List α)
    (himp : ∀ y ∈ l, p y = true → q y = true) :
    (l.filter p).length ≤ (l.filter q).length := by
  induction l with
  | nil => simp
  | cons a rest ih =>
    have ih2 := ih fun y hy => himp y (List.mem_cons_of_mem a hy)
    by_cases hpa : p a = true
    · have hqa := himp a (List.mem_cons_self _ _) hpa
      simp only [List.filter_cons, hpa, hqa, if_true, List.length_cons]
      omega
    · simp only [Bool.not_eq_true] at hpa
      by_cases hqa : q a = true
      · simp only [List.filter_cons, hpa, hqa, if_true, Bool.false_eq_true, if_false,
          List.length_cons]
        omega
      · simp only [Bool.not_eq_true] at hqa
        simp only [List.filter_cons, hpa, hqa, Bool.false_eq_true, if_false]
        exact ih2

theorem length_filter_lt_of_witness {α} (p q : α → Bool) (l : List α) (x : α)
    (hx : x ∈ l) (hq : q x = true) (hp : p x = false)
    (himp : ∀ y ∈ l, p y = true → q y = true) :
    (l.filter p).length < (l.filter q).length := by
  induction l with
  | nil => simp at hx
  | cons a rest ih =>
    have himp2 : ∀ y ∈ rest, p y = true → q y = true :=
      fun y hy => himp y (List.mem_cons_of_mem a hy)
    rcases List.mem_cons.mp hx with rfl | hmem
    · simp only [List.filter_cons, hp, hq, if_true, Bool.false_eq_true, if_false,
        List.length_cons]
      have := length_filter_le_of_imp p q rest himp2
      omega
    · by_cases hpa : p a = true
      · have hqa := himp a (List.mem_cons_self _ _) hpa
        simp only [List.filter_cons, hpa, hqa, if_true, List.length_cons]
        exact Nat.succ_lt_succ (ih hmem himp2)
      · simp only [Bool.not_eq_true] at hpa
        by_cases hqa : q a = true
        · simp only [List.filter_cons, hpa, hqa, if_true, Bool.false_eq_true, if_false,
            List.length_cons]
          have := ih hmem himp2
          omega
        · simp only [Bool.not_eq_true] at hqa
          simp only [List.filter_cons, hpa, hqa, Bool.false_eq_true, if_false]
          exact ih hmem himp2

theorem candidates_decrease (size : Nat) (ds : List SPost) (before : Option Nat)
    (h : serverPage size ds before ≠ []) :
    (candidates ds (some ((serverPage size ds before).getLast h).ts)).length <
      (candidates ds before).length := by
  set x := (serverPage size ds before).getLast h with hx
  have hxpage : x ∈ serverPage size ds before := List.getLast_mem h
  have hxcand : x ∈ candidates ds before := List.take_subset _ _ hxpage
  cases before with
  | none =>
    show (ds.filter fun p => decide (p.ts < x.ts)).length < ds.length
    have hft : ds.filter (fun _ => true) = ds := List.filter_true ds
    have := length_filter_lt_of_witness (fun p => decide (p.ts < x.ts)) (fun _ => true)
      ds x hxcand rfl (by simp) (fun y _ _ => rfl)
    rw [hft] at this
    exact this
  | some b =>
    show (ds.filter fun p => decide (p.ts < x.ts)).length <
      (ds.filter fun p => decide (p.ts < b)).length
    have hxb : x.ts < b := by
      have := List.mem_filter.mp hxcand
      simpa using this.2
    exact length_filter_lt_of_witness _ _ ds x (List.mem_filter.mp hxcand).1
      (by simpa using hxb) (by simp) (fun y _ hy => by
        simp only [decide_eq_true_eq] at hy ⊢
        omega)

/-- The number of page queries the pagination loop performs for one
target (subreddit.rs, lines 89-94: call `pushshift::api`, stop on an
empty page, otherwise continue with the advanced cursor). -/
def numQueries (size : Nat) (ds : List SPost) (before : Option Nat) : Nat :=
  if h : serverPage size ds before = [] then 1
  else 1 + numQueries size ds (some ((serverPage size ds before).getLast h).ts)
termination_by (candidates ds before).length
decreasing_by
  exact candidates_decrease size ds before h

/--
Claim C5: a successful non-empty page moves the cursor to the
`created_utc` of its last (oldest) item; an empty page stops the loop
after that query; and over any finite backing dataset the loop performs
only finitely many queries — at most one more than the number of
eligible items (sites/pushshift.rs, lines 134-180; subreddit.rs, lines
89-94).
-/
theorem claim_C5 :
    (∀ (posts : List SPost) (before : Option Nat) (p : SPost),
        posts.getLast? = some p → apiCursor posts before = some p.ts) ∧
    (∀ (size : Nat) (ds : List SPost) (before : Option Nat),
        serverPage size ds before = [] → numQueries size ds before = 1) ∧
    (∀ (size : Nat) (ds : List SPost) (before : Option Nat),
        numQueries size ds before ≤ (candidates ds before).length + 1) := by
  refine ⟨?_, ?_, ?_⟩
  · intro posts before p hlast
    unfold apiCursor
    rw [hlast]
  · intro size ds before hsp
    rw [numQueries]
    simp [hsp]
  · intro size ds
    have key : ∀ (n : Nat) (before : Option Nat), (candidates ds before).length ≤ n →
        numQueries size ds before ≤ n + 1 := by
      intro n
      induction n with
      | zero =>
        intro before hlen
        have hsp : serverPage size ds before = [] := by
          unfold serverPage
          rw [List.length_eq_zero.mp (Nat.le_zero.mp hlen)]
          simp
        rw [numQueries]
        simp [hsp]
      | succ n ih =>
        intro before hlen
        rw [numQueries]
        split
        · omega
        · rename_i h
          have hdec := candidates_decrease size ds before h
          have := ih (some ((serverPage size ds before).getLast h).ts) (by omega)
          omega
    intro before
    exact key _ before (Nat.le_refl _)

/-- Witness for claim C5 at a concrete two-item dataset. -/
theorem claim_C5_witness :
    apiCursor [⟨"a", 5⟩] none = some 5 ∧
      numQueries 2 [⟨"a", 5⟩, ⟨"b", 4⟩] none ≤ 3 := by
  constructor
  · exact claim_C5.1 [⟨"a", 5⟩] none ⟨"a", 5⟩ rfl
  · have h := claim_C5.2.2 2 [⟨"a", 5⟩, ⟨"b", 4⟩] none
    simpa [candidates] using h

/-! ### Claims C1 and C2: the coordinator loop as an event trace -/

/-- An observable event of the per-target loop of `rip`
(subreddit.rs, `rip`): writing the resume-marker file, running one
queued job to completion (`queue.next()`), and submitting one fetch
task (`queue.push`). -/
inductive Event where
  | write (id : String)
  | pop
  | push
deriving DecidableEq

/-- One item of a page, reduced to the checks `rip` performs on it
(subreddit.rs, lines 98-149): presence of a string `id`, a present and
parseable `url`, a boolean `is_self`, and a decodable `Post`. -/
structure RipItem where
  id : Option String
  urlOk : Bool
  isSelf : Option Bool
  postOk : Bool

/-- The coordinator's per-target state: whether the marker file has been
written in this run (`updated`, subreddit.rs line 51), and the number of
in-flight jobs in the queue. -/
structure RipState where
  updated : Bool
  qlen : Nat

/-- The queue interaction of one submission (subreddit.rs, lines
151-168): when the queue is at the limit, exactly one job is first run
to completion; then the new job is pushed.  (`queue.next()` on an empty
`FuturesUnordered` returns `None` immediately, so nothing is popped when
the limit is zero.) -/
def submitEvents (limit qlen : Nat) : List Event × Nat :=
  if qlen = limit then
    if qlen = 0 then ([Event.push], 1)
    else ([Event.pop, Event.push], qlen)
  else ([Event.push], qlen + 1)

/-- Processing of one item (subreddit.rs, lines 98-168): the update
check (`break 'chunks` when the id matches the marker read at start),
the marker write for the first identified item, the url/is_self/decode
checks (each failure skips the item), and the submission.  Returns the
new state, the emitted events, and whether the break fired. -/
def processItem (update : Bool) (newest : Option String) (limit : Nat)
    (st : RipState) (it : RipItem) : RipState × List Event × Bool :=
  match it.id with
  | none => (st, [], false)
  | some id =>
    if update ∧ newest = some id then (st, [], true)
    else
      let wr : List Event × RipState :=
        if st.updated then ([], st) else ([Event.write id], ⟨true, st.qlen⟩)
      if it.urlOk = false then (wr.2, wr.1, false)
      else
        match it.isSelf with
        | none => (wr.2, wr.1, false)
        | some _ =>
          if it.postOk = false then (wr.2, wr.1, false)
          else
            let sub := submitEvents limit wr.2.qlen
            (⟨wr.2.updated, sub.2⟩, wr.1 ++ sub.1, false)

/-- Processing of the items of one page, in order, stopping at the
update break. -/
def processItems (update : Bool) (newest : Option String) (limit : Nat) :
    RipState → List RipItem → RipState × List Event × Bool
  | st, [] => (st, [], false)
  | st, it :: rest =>
    let r := processItem update newest limit st it
    if r.2.2 then (r.1, r.2.1, true)
    else
      let r2 := processItems update newest limit r.1 rest
      (r2.1, r.2.1 ++ r2.2.1, r2.2.2)

/-- The page loop (`'chunks`, subreddit.rs lines 89-170): stop at the
first empty page or at the update break. -/
def processPages (update : Bool) (newest : Option String) (limit : Nat) :
    RipState → List (List RipItem) → RipState × List Event
  | st, [] => (st, [])
  | st, page :: rest =>
    if page.isEmpty then (st, [])
    else
      let r := processItems update newest limit st page
      if r.2.2 then (r.1, r.2.1)
      else
        let r2 := processPages update newest limit r.1 rest
        (r2.1, r.2.1 ++ r2.2)

/-- The full event trace of one collection target (subreddit.rs, lines
48-176): the page loop starting with a fresh `updated` flag and an empty
queue, followed by draining the remaining jobs (lines 172-175). -/
def ripTarget (update : Bool) (newest : Option String) (limit : Nat)
    (pages : List (List RipItem)) : List Event :=
  let r := processPages update newest limit ⟨false, 0⟩ pages
  r.2 ++ List.replicate r.1.qlen Event.pop

/-- The queue length after a run of events, starting from `q`. -/
def qAfter : Nat → List Event → Nat
  | q, [] => q
  | q, Event.push :: r => qAfter (q + 1) r
  | q, Event.pop :: r => qAfter (q - 1) r
  | q, Event.write _ :: r => qAfter q r

/-- All intermediate queue lengths along `l`, starting from `q`, stay
at or below `limit`. -/
def QBounded (limit : Nat) : Nat → List Event → Prop
  | q, [] => q ≤ limit
  | q, Event.push :: r => q ≤ limit ∧ QBounded limit (q + 1) r
  | q, Event.pop :: r => q ≤ limit ∧ QBounded limit (q - 1) r
  | q, Event.write _ :: r => q ≤ limit ∧ QBounded limit q r

theorem qAfter_append (a : List Event) :
    ∀ (q : Nat) (b : List Event), qAfter q (a ++ b) = qAfter (qAfter q a) b := by
  induction a with
  | nil => intro q b; rfl
  | cons e rest ih =>
    intro q b
    cases e <;> simp only [List.cons_append, qAfter] <;> exact ih _ b

theorem QBounded_append {limit : Nat} {a : List Event} :
    ∀ {q : Nat} {b : List Event}, QBounded limit q a →
      QBounded limit (qAfter q a) b → QBounded limit q (a ++ b) := by
  induction a with
  | nil =>
    intro q b _ hb
    cases b with
    | nil => exact hb
    | cons e r => exact hb
  | cons e rest ih =>
    intro q b ha hb
    cases e <;> simp only [List.cons_append, QBounded, qAfter] at * <;>
      exact ⟨ha.1, ih ha.2 hb⟩

theorem QBounded_decomp {limit : Nat} :
    ∀ {l : List Event} {q : Nat}, QBounded limit q l →
      ∀ a b, l = a ++ b → qAfter q a ≤ limit := by
  intro l
  induction l with
  | nil =>
    intro q h a b hab
    have ha : a = [] := by
      cases a with
      | nil => rfl
      | cons x xs => simp at hab
    subst ha
    exact h
  | cons e rest ih =>
    intro q h a b hab
    cases a with
    | nil =>
      simp only [qAfter]
      cases e <;> exact h.1
    | cons x xs =>
      simp only [List.cons_append, List.cons.injEq] at hab
      obtain ⟨rfl, hab2⟩ := hab
      cases e <;> simp only [qAfter] <;> cases hab2 <;> exact ih h.2 xs b rfl

theorem QBounded_qAfter_le {limit : Nat} :
    ∀ {l : List Event} {q : Nat}, QBounded limit q l → qAfter q l ≤ limit := by
  intro l
  induction l with
  | nil => intro q h; exact h
  | cons e rest ih =>
    intro q h
    cases e <;> exact ih h.2

theorem QBounded_replicate_pop {limit : Nat} :
    ∀ q : Nat, q ≤ limit → QBounded limit q (List.replicate q Event.pop) := by
  intro q
  induction q with
  | zero => intro h; exact h
  | succ n ih =>
    intro h
    simp only [List.replicate, QBounded, Nat.add_sub_cancel]
    exact ⟨h, ih (by omega)⟩

theorem submitEvents_spec (limit qlen : Nat) (hN : 1 ≤ limit) (hq : qlen ≤ limit) :
    QBounded limit qlen (submitEvents limit qlen).1 ∧
      (submitEvents limit qlen).2 = qAfter qlen (submitEvents limit qlen).1 ∧
      (submitEvents limit qlen).2 ≤ limit := by
  unfold submitEvents
  by_cases h : qlen = limit
  · have h0 : ¬ qlen = 0 := by omega
    simp only [if_pos h, if_neg h0]
    refine ⟨?_, ?_, hq⟩
    · simp only [QBounded]
      omega
    · simp only [qAfter]
      omega
  · simp only [if_neg h]
    refine ⟨?_, ?_, by omega⟩
    · simp only [QBounded]
      omega
    · simp only [qAfter]

theorem processItem_queue (update : Bool) (newest : Option String) (limit : Nat)
    (st : RipState) (it : RipItem) (hN : 1 ≤ limit) (hq : st.qlen ≤ limit) :
    QBounded limit st.qlen (processItem update newest limit st it).2.1 ∧
      (processItem update newest limit st it).1.qlen =
        qAfter st.qlen (processItem update newest limit st it).2.1 ∧
      (processItem update newest limit st it).1.qlen ≤ limit := by
  cases hid : it.id with
  | none =>
    simp only [processItem, hid]
    exact ⟨hq, rfl, hq⟩
  | some id =>
    simp only [processItem, hid]
    by_cases hupd : update = true ∧ newest = some id
    · rw [if_pos hupd]
      exact ⟨hq, rfl, hq⟩
    · rw [if_neg hupd]
      by_cases hu : st.updated = true
      · simp only [hu, eq_self_iff_true, if_true]
        by_cases hurl : it.urlOk = false
        · simp only [hurl, if_true]
          exact ⟨hq, rfl, hq⟩
        · simp only [hurl, Bool.false_eq_true, if_false]
          cases hself : it.isSelf with
          | none => exact ⟨hq, rfl, hq⟩
          | some b =>
            by_cases hpost : it.postOk = false
            · simp only [hpost, if_true]
              exact ⟨hq, rfl, hq⟩
            · simp only [hpost, Bool.false_eq_true, if_false]
              obtain ⟨h1, h2, h3⟩ := submitEvents_spec limit st.qlen hN hq
              exact ⟨h1, h2, h3⟩
      · simp only [Bool.not_eq_true] at hu
        simp only [hu, Bool.false_eq_true, if_false]
        by_cases hurl : it.urlOk = false
        · simp only [hurl, if_true]
          refine ⟨⟨hq, hq⟩, rfl, hq⟩
        · simp only [hurl, Bool.false_eq_true, if_false]
          cases hself : it.isSelf with
          | none => exact ⟨⟨hq, hq⟩, rfl, hq⟩
          | some b =>
            by_cases hpost : it.postOk = false
            · simp only [hpost, if_true]
              exact ⟨⟨hq, hq⟩, rfl, hq⟩
            · simp only [hpost, Bool.false_eq_true, if_false]
              obtain ⟨h1, h2, h3⟩ := submitEvents_spec limit st.qlen hN hq
              refine ⟨⟨hq, h1⟩, ?_, h3⟩
              simp only [qAfter]
              exact h2

theorem processItems_queue (update : Bool) (newest : Option String) (limit : Nat)
    (hN : 1 ≤ limit) :
    ∀ (its : List RipItem) (st : RipState), st.qlen ≤ limit →
      QBounded limit st.qlen (processItems update newest limit st its).2.1 ∧
        (processItems update newest limit st its).1.qlen =
          qAfter st.qlen (processItems update newest limit st its).2.1 ∧
        (processItems update newest limit st its).1.qlen ≤ limit := by
  intro its
  induction its with
  | nil => intro st hq; exact ⟨hq, rfl, hq⟩
  | cons it rest ih =>
    intro st hq
    obtain ⟨h1, h2, h3⟩ := processItem_queue update newest limit st it hN hq
    simp only [processItems]
    by_cases hstop : (processItem update newest limit st it).2.2 = true
    · simp only [hstop, if_true]
      exact ⟨h1, h2, h3⟩
    · simp only [hstop, Bool.false_eq_true, if_false]
      obtain ⟨g1, g2, g3⟩ := ih (processItem update newest limit st it).1 h3
      refine ⟨?_, ?_, g3⟩
      · exact QBounded_append h1 (h2 ▸ g1)
      · rw [qAfter_append, ← h2, g2]

theorem processPages_queue (update : Bool) (newest : Option String) (limit : Nat)
    (hN : 1 ≤ limit) :
    ∀ (pages : List (List RipItem)) (st : RipState), st.qlen ≤ limit →
      QBounded limit st.qlen (processPages update newest limit st pages).2 ∧
        (processPages update newest limit st pages).1.qlen =
          qAfter st.qlen (processPages update newest limit st pages).2 ∧
        (processPages update newest limit st pages).1.qlen ≤ limit := by
  intro pages
  induction pages with
  | nil => intro st hq; exact ⟨hq, rfl, hq⟩
  | cons page rest ih =>
    intro st hq
    simp only [processPages]
    by_cases hemp : page.isEmpty = true
    · simp only [hemp, if_true]
      exact ⟨hq, rfl, hq⟩
    · simp only [hemp, Bool.false_eq_true, if_false]
      obtain ⟨h1, h2, h3⟩ := processItems_queue update newest limit hN page st hq
      by_cases hstop : (processItems update newest limit st page).2.2 = true
      · simp only [hstop, if_true]
        exact ⟨h1, h2, h3⟩
      · simp only [hstop, Bool.false_eq_true, if_false]
        obtain ⟨g1, g2, g3⟩ := ih (processItems update newest limit st page).1 h3
        refine ⟨?_, ?_, g3⟩
        · exact QBounded_append h1 (h2 ▸ g1)
        · rw [qAfter_append, ← h2, g2]

/--
Claim C2: with concurrency limit N ≥ 1, the number of in-flight fetch
tasks never exceeds N at any point of the run — every prefix of the
event trace leaves at most N jobs in the queue — and a submission that
finds the queue at capacity first runs exactly one in-flight job to
completion before pushing (subreddit.rs, lines 151-158).
-/
theorem claim_C2 (limit : Nat) (update : Bool) (newest : Option String)
    (pages : List (List RipItem)) (hN : 1 ≤ limit) :
    (∀ a b, ripTarget update newest limit pages = a ++ b → qAfter 0 a ≤ limit) ∧
      ∀ q, q = limit → submitEvents limit q = ([Event.pop, Event.push], q) := by
  constructor
  · obtain ⟨h1, h2, h3⟩ :=
      processPages_queue update newest limit hN pages ⟨false, 0⟩ (Nat.zero_le _)
    have hrep := QBounded_replicate_pop
      (processPages update newest limit ⟨false, 0⟩ pages).1.qlen h3
    have hall : QBounded limit 0 (ripTarget update newest limit pages) := by
      unfold ripTarget
      exact QBounded_append h1 (by rw [← h2]; exact hrep)
    exact fun a b hab => QBounded_decomp hall a b hab
  · intro q hq
    subst hq
    unfold submitEvents
    rw [if_pos rfl, if_neg (by omega)]

/-- Witness for claim C2: a one-item page with limit 1; the trace is
`[write, push, pop]` and its prefixes never exceed depth 1, and a
submission at capacity 1 first pops exactly one job. -/
theorem claim_C2_witness :
    qAfter 0 [Event.write "x", Event.push] ≤ 1 ∧
      submitEvents 1 1 = ([Event.pop, Event.push], 1) := by
  constructor
  · exact (claim_C2 1 false none [[⟨some "x", true, some true, true⟩]]
      (by omega)).1 [Event.write "x", Event.push] [Event.pop] (by decide)
  · exact (claim_C2 1 false none [] (by omega)).2 1 rfl

/-- Whether an event is a marker write. -/
def isWrite : Event → Bool
  | .write _ => true
  | _ => false

/-- No marker-write event in the list. -/
def NoW (l : List Event) : Prop := ∀ e ∈ l, isWrite e = false

/-- Neither marker-write nor submission events in the list. -/
def NoWP (l : List Event) : Prop := ∀ e ∈ l, isWrite e = false ∧ e ≠ Event.push

theorem NoW_append {a b : List Event} (ha : NoW a) (hb : NoW b) : NoW (a ++ b) := by
  intro e he
  rcases List.mem_append.mp he with h | h
  · exact ha e h
  · exact hb e h

theorem NoWP_append {a b : List Event} (ha : NoWP a) (hb : NoWP b) : NoWP (a ++ b) := by
  intro e he
  rcases List.mem_append.mp he with h | h
  · exact ha e h
  · exact hb e h

theorem NoW_push : NoW [Event.push] := by
  intro e he
  rcases List.mem_cons.mp he with rfl | he2
  · rfl
  · simp at he2

theorem NoW_pop_push : NoW [Event.pop, Event.push] := by
  intro e he
  rcases List.mem_cons.mp he with rfl | he2
  · rfl
  · rcases List.mem_cons.mp he2 with rfl | he3
    · rfl
    · simp at he3

theorem submitEvents_NoW (limit q : Nat) : NoW (submitEvents limit q).1 := by
  unfold submitEvents
  by_cases h : q = limit
  · rw [if_pos h]
    by_cases h0 : q = 0
    · rw [if_pos h0]; exact NoW_push
    · rw [if_neg h0]; exact NoW_pop_push
  · rw [if_neg h]; exact NoW_push

/-- The marker invariant: before the marker is written the trace has no
write and no push; afterwards the trace is exactly one write surrounded
by a write-and-push-free prefix and a write-free remainder. -/
def MarkerInv (st : RipState) (evs : List Event) : Prop :=
  (st.updated = false → NoWP evs) ∧
  (st.updated = true → ∃ pre id rest, evs = pre ++ Event.write id :: rest ∧
    NoWP pre ∧ NoW rest)

theorem MarkerInv_extend_true {st2 : RipState} {evs ws : List Event}
    (hupd : st2.updated = true)
    (h : ∃ pre id rest, evs = pre ++ Event.write id :: rest ∧ NoWP pre ∧ NoW rest)
    (hws : NoW ws) : MarkerInv st2 (evs ++ ws) := by
  constructor
  · intro hc; rw [hupd] at hc; cases hc
  · intro _
    obtain ⟨pre, id, rest, rfl, hpre, hrest⟩ := h
    exact ⟨pre, id, rest ++ ws, by simp, hpre, NoW_append hrest hws⟩

theorem MarkerInv_write {st2 : RipState} {evs tail : List Event} {id : String}
    (hupd : st2.updated = true) (hpre : NoWP evs) (htail : NoW tail) :
    MarkerInv st2 (evs ++ (Event.write id :: tail)) := by
  constructor
  · intro hc; rw [hupd] at hc; cases hc
  · intro _
    exact ⟨evs, id, tail, rfl, hpre, htail⟩

theorem MarkerInv_extend_false {st2 : RipState} {evs ws : List Event}
    (hupd : st2.updated = false) (hpre : NoWP evs) (hws : NoWP ws) :
    MarkerInv st2 (evs ++ ws) := by
  constructor
  · intro _; exact NoWP_append hpre hws
  · intro hc; rw [hupd] at hc; cases hc

theorem MarkerInv_extend_nonwp {st : RipState} {evs ws : List Event}
    (h : MarkerInv st evs) (hws : NoWP ws) : MarkerInv st (evs ++ ws) := by
  cases hu : st.updated
  · exact MarkerInv_extend_false hu (h.1 hu) hws
  · exact MarkerInv_extend_true hu (h.2 hu) fun e he => (hws e he).1

theorem MarkerInv_processItem (update : Bool) (newest : Option String) (limit : Nat)
    (st : RipState) (it : RipItem) {evs : List Event} (h : MarkerInv st evs) :
    MarkerInv (processItem update newest limit st it).1
      (evs ++ (processItem update newest limit st it).2.1) := by
  cases hid : it.id with
  | none =>
    simp only [processItem, hid, List.append_nil]
    exact h
  | some id =>
    simp only [processItem, hid]
    by_cases hupd : update = true ∧ newest = some id
    · rw [if_pos hupd]
      simpa using h
    · rw [if_neg hupd]
      by_cases hu : st.updated = true
      · simp only [hu, eq_self_iff_true, if_true]
        by_cases hurl : it.urlOk = false
        · simp only [hurl, if_true]
          simpa using h
        · simp only [hurl, Bool.false_eq_true, if_false]
          cases hself : it.isSelf with
          | none => simpa using h
          | some b =>
            by_cases hpost : it.postOk = false
            · simp only [hpost, if_true]
              simpa using h
            · simp only [hpost, Bool.false_eq_true, if_false, List.nil_append]
              exact MarkerInv_extend_true rfl (h.2 hu) (submitEvents_NoW limit st.qlen)
      · simp only [Bool.not_eq_true] at hu
        simp only [hu, Bool.false_eq_true, if_false]
        have hpre := h.1 hu
        have hnil : NoW ([] : List Event) := fun e he => absurd he (List.not_mem_nil e)
        by_cases hurl : it.urlOk = false
        · simp only [hurl, if_true]
          exact MarkerInv_write rfl hpre hnil
        · simp only [hurl, Bool.false_eq_true, if_false]
          cases hself : it.isSelf with
          | none => exact MarkerInv_write rfl hpre hnil
          | some b =>
            by_cases hpost : it.postOk = false
            · simp only [hpost, if_true]
              exact MarkerInv_write rfl hpre hnil
            · simp only [hpost, Bool.false_eq_true, if_false, List.cons_append,
                List.nil_append]
              exact MarkerInv_write rfl hpre (submitEvents_NoW limit st.qlen)

theorem MarkerInv_processItems (update : Bool) (newest : Option String) (limit : Nat) :
    ∀ (its : List RipItem) (st : RipState) (evs : List Event), MarkerInv st evs →
      MarkerInv (processItems update newest limit st its).1
        (evs ++ (processItems update newest limit st its).2.1) := by
  intro its
  induction its with
  | nil =>
    intro st evs h
    simp only [processItems, List.append_nil]
    exact h
  | cons it rest ih =>
    intro st evs h
    simp only [processItems]
    by_cases hstop : (processItem update newest limit st it).2.2 = true
    · simp only [hstop, if_true]
      exact MarkerInv_processItem update newest limit st it h
    · simp only [hstop, Bool.false_eq_true, if_false]
      have h1 := MarkerInv_processItem update newest limit st it h
      have h2 := ih (processItem update newest limit st it).1
        (evs ++ (processItem update newest limit st it).2.1) h1
      simpa [List.append_assoc] using h2

theorem MarkerInv_processPages (update : Bool) (newest : Option String) (limit : Nat) :
    ∀ (pages : List (List RipItem)) (st : RipState) (evs : List Event), MarkerInv st evs →
      MarkerInv (processPages update newest limit st pages).1
        (evs ++ (processPages update newest limit st pages).2) := by
  intro pages
  induction pages with
  | nil =>
    intro st evs h
    simp only [processPages, List.append_nil]
    exact h
  | cons page rest ih =>
    intro st evs h
    simp only [processPages]
    by_cases hemp : page.isEmpty = true
    · simp only [hemp, if_true, List.append_nil]
      exact h
    · simp only [hemp, Bool.false_eq_true, if_false]
      have h1 := MarkerInv_processItems update newest limit page st evs h
      by_cases hstop : (processItems update newest limit st page).2.2 = true
      · simp only [hstop, if_true]
        exact h1
      · simp only [hstop, Bool.false_eq_true, if_false]
        have h2 := ih (processItems update newest limit st page).1
          (evs ++ (processItems update newest limit st page).2.1) h1
        simpa [List.append_assoc] using h2

theorem filter_isWrite_nil {l : List Event} (h : NoW l) : l.filter isWrite = [] := by
  induction l with
  | nil => rfl
  | cons e r ih =>
    simp only [List.filter_cons, h e (List.mem_cons_self _ _), Bool.false_eq_true, if_false]
    exact ih fun x hx => h x (List.mem_cons_of_mem e hx)

theorem MarkerInv_traceOK {st : RipState} {evs : List Event} (h : MarkerInv st evs) :
    (evs.filter isWrite).length ≤ 1 ∧
      ∀ a b, evs = a ++ Event.push :: b → ∃ p id q1, a = p ++ Event.write id :: q1 := by
  cases hu : st.updated
  · have hnw := h.1 hu
    constructor
    · rw [filter_isWrite_nil fun e he => (hnw e he).1]
      simp
    · intro a b hab
      exfalso
      have hp : Event.push ∈ evs := by
        rw [hab]
        exact List.mem_append_right a (List.mem_cons_self _ _)
      exact (hnw _ hp).2 rfl
  · obtain ⟨pre, id, rest, heq, hpre, hrest⟩ := h.2 hu
    constructor
    · rw [heq, List.filter_append, List.filter_cons]
      rw [filter_isWrite_nil fun e he => (hpre e he).1, filter_isWrite_nil hrest]
      simp [isWrite]
    · intro a b hab
      rw [heq] at hab
      rcases List.append_eq_append_iff.mp hab with ⟨x, hx1, hx2⟩ | ⟨x, hx1, hx2⟩
      · cases x with
        | nil =>
          simp only [List.nil_append] at hx2
          cases hx2
        | cons y ys =>
          simp only [List.cons_append, List.cons.injEq] at hx2
          obtain ⟨rfl, -⟩ := hx2
          exact ⟨pre, id, ys, by rw [hx1]⟩
      · cases x with
        | nil =>
          simp only [List.nil_append] at hx2
          cases hx2
        | cons y ys =>
          simp only [List.cons_append, List.cons.injEq] at hx2
          obtain ⟨rfl, -⟩ := hx2
          exfalso
          have hmem : Event.push ∈ pre := by
            rw [hx1]
            exact List.mem_append_right a (List.mem_cons_self _ _)
          exact (hpre _ hmem).2 rfl

/--
Claim C1: in every run and for every collection target, the resume
marker is written at most once, and when it is written the write
strictly precedes every submission of a fetch task to the queue for that
target (subreddit.rs: `updated` flag and `create_update_file`, lines
105-112, before the `queue.push` of lines 158-168; marker file write in
`create_update_file`, lines 208-213).
-/
theorem claim_C1 (update : Bool) (newest : Option String) (limit : Nat)
    (pages : List (List RipItem)) :
    ((ripTarget update newest limit pages).filter isWrite).length ≤ 1 ∧
      ∀ a b, ripTarget update newest limit pages = a ++ Event.push :: b →
        ∃ p id q1, a = p ++ Event.write id :: q1 := by
  have h0 : MarkerInv (⟨false, 0⟩ : RipState) [] := by
    constructor
    · intro _ e he
      simp at he
    · intro hc
      simp at hc
  have h1 := MarkerInv_processPages update newest limit pages ⟨false, 0⟩ [] h0
  have h2 : NoWP (List.replicate
      (processPages update newest limit ⟨false, 0⟩ pages).1.qlen Event.pop) := by
    intro e he
    rw [List.eq_of_mem_replicate he]
    exact ⟨rfl, by simp⟩
  have h3 := MarkerInv_extend_nonwp h1 h2
  have h4 := MarkerInv_traceOK h3
  simpa [ripTarget] using h4

/-- Witness for claim C1: a single valid item with limit 1; the trace is
`[write "x", push, pop]` and its only push is preceded by the write. -/
theorem claim_C1_witness :
    ∃ p id q1, [Event.write "x"] = p ++ Event.write id :: q1 :=
  (claim_C1 false none 1 [[⟨some "x", true, some true, true⟩]]).2
    [Event.write "x"] [Event.pop] (by decide)

end Redditrip
